import Mathlib

/- Verification of the Prombench scaler replica-oscillation control loop
   (tools/scaler/scaler.go). The Go program loads a set of Kubernetes
   resource descriptors, and then, on a fixed cadence, rewrites the replica
   count of every deployment object and applies the result to the cluster
   API, following either a burst pattern (alternate between max and min) or
   a step pattern (ramp from min towards max by a scaling factor, clamping
   at max). The embedding below mirrors the Go code: machine int32
   arithmetic is modelled on Int with an explicit wrap-around, the apply
   call is modelled by an oracle saying on which cycles it fails, and the
   loops are modelled as state machines whose trace records the resource
   sets handed to the apply call and the number of error lines printed. -/

namespace Scaler

/- A single Kubernetes object inside a loaded descriptor file. The Go code
   inspects GetObjectKind().GroupVersionKind().Kind (modelled by the kind
   field), reads and writes Spec.Replicas (a nullable int32 pointer,
   modelled by an Option Int), and copies everything else verbatim
   (modelled by the opaque payload field). -/
structure K8sObject where
  kind : String
  replicas : Option Int
  payload : String
deriving DecidableEq

/- Mirror of k8s.Resource: a descriptor file name together with the list
   of objects parsed from that file. -/
structure Resource where
  fileName : String
  objects : List K8sObject
deriving DecidableEq

/- ASCII lower-casing, character by character: the behaviour of the Go
   strings.ToLower call on the ASCII kind names that occur in manifests. -/
def strLower (s : String) : String := ⟨s.data.map Char.toLower⟩

/- Wrap-around of Go int32 arithmetic: reduce an integer into the interval
   from -2147483648 to 2147483647. -/
def wrap32 (x : Int) : Int := (x + 2147483648) % 4294967296 - 2147483648

/- Inner loop of scale.updateReplicas over the objects of one descriptor
   file: keep exactly the objects whose lower-cased kind is the string
   in quotes below, with the replica field set to the given count. -/
def updateObjects (objects : List K8sObject) (replicas : Int) : List K8sObject :=
  match objects with
  | [] => []
  | resource :: rest =>
    if strLower resource.kind = "deployment" then
      { resource with replicas := some replicas } :: updateObjects rest replicas
    else
      updateObjects rest replicas

/- Mirror of scale.updateReplicas: walk the loaded resources; for each
   descriptor file collect its deployment objects with the replica field
   rewritten; keep the file in the result only when that collection is
   non-empty. -/
def updateReplicas (resources : List Resource) (replicas : Int) : List Resource :=
  match resources with
  | [] => []
  | deployment :: rest =>
    let k8sObjects := updateObjects deployment.objects replicas
    if 0 < k8sObjects.length then
      { fileName := deployment.fileName, objects := k8sObjects } :: updateReplicas rest replicas
    else
      updateReplicas rest replicas

/- The setReplicas operation as the specification words it: a copy of the
   deployment objects with their replica field set to the count;
   non-deployment objects are dropped; files left with no objects are
   dropped. Stated separately from updateReplicas so that the two can be
   compared. -/
def setReplicasSpec (resources : List Resource) (count : Int) : List Resource :=
  resources.filterMap fun r =>
    let objs := (r.objects.filter fun o => strLower o.kind == "deployment").map
      fun o => { o with replicas := some count }
    if objs.isEmpty then none else some { fileName := r.fileName, objects := objs }

/- Mirror of the scaling-factor adjustment at the top of the step branch of
   scale.scale: a boolean flag is raised when the supplied factor is at
   least max or when it is zero, and if raised the factor is replaced by
   max divided by 10 with Go integer division (truncating). -/
def effectiveFactor (max scalingFactor : Int) : Int :=
  let updateScalingFactor := false
  let updateScalingFactor := if scalingFactor ≥ max then true else updateScalingFactor
  let updateScalingFactor := if scalingFactor = 0 then true else updateScalingFactor
  if updateScalingFactor then Int.tdiv max 10 else scalingFactor

/- One update of the loop counter in the step branch: int32 addition of the
   scaling factor followed by the clamp to max. -/
def stepNext (max scalingFactor numberOfResources : Int) : Int :=
  let n := wrap32 (numberOfResources + scalingFactor)
  if n > max then max else n

/- The value of the loop counter numberOfResources at the start of cycle n
   of the step loop: it starts at min and is advanced by stepNext once per
   cycle. This is the replica count applied on cycle n. -/
def stepCount (min max scalingFactor : Int) : Nat → Int
  | 0 => min
  | n + 1 => stepNext max scalingFactor (stepCount min max scalingFactor n)

/- Observable state of the step loop: the loop counter, the list of
   resource sets handed to ResourceApply so far (oldest first), and the
   number of error lines written to standard error so far. -/
structure StepState where
  numberOfResources : Int
  appliedSets : List (List Resource)
  stderrLines : Nat
deriving DecidableEq

/- The step branch of scale.scale after n cycles. Each cycle recomputes the
   resource set from the loaded resources at the current counter, hands it
   to apply, logs one error line when the apply call fails on that cycle,
   and advances the counter. The applyFails oracle tells which cycles fail. -/
def stepRun (resources : List Resource) (min max scalingFactor : Int)
    (applyFails : Nat → Bool) : Nat → StepState
  | 0 => { numberOfResources := min, appliedSets := [], stderrLines := 0 }
  | n + 1 =>
    let st := stepRun resources min max scalingFactor applyFails n
    { numberOfResources := stepNext max scalingFactor st.numberOfResources
      appliedSets := st.appliedSets ++ [updateReplicas resources st.numberOfResources]
      stderrLines := st.stderrLines + (if applyFails n then 1 else 0) }

/- Observable state of the burst loop: the applied resource sets and the
   stderr error-line count. -/
structure BurstState where
  appliedSets : List (List Resource)
  stderrLines : Nat
deriving DecidableEq

/- The body of the burst loop of scale.scale, run k times, parametrised by
   the two snapshots computed before the loop. One Go loop iteration
   performs two applies: the max snapshot, then the min snapshot, so after
   k iterations 2k sets have been applied; apply number 2i and 2i+1 belong
   to iteration i. -/
def burstLoop (maxResourceObjects minResourceObjects : List Resource)
    (applyFails : Nat → Bool) : Nat → BurstState
  | 0 => { appliedSets := [], stderrLines := 0 }
  | k + 1 =>
    let st := burstLoop maxResourceObjects minResourceObjects applyFails k
    { appliedSets := st.appliedSets ++ [maxResourceObjects, minResourceObjects]
      stderrLines := st.stderrLines + (if applyFails (2 * k) then 1 else 0)
          + (if applyFails (2 * k + 1) then 1 else 0) }

/- The burst branch of scale.scale: the two snapshots are computed once,
   before the loop starts, and the loop then alternates between them. -/
def burstRun (resources : List Resource) (min max : Int) (applyFails : Nat → Bool)
    (k : Nat) : BurstState :=
  burstLoop (updateReplicas resources max) (updateReplicas resources min) applyFails k

/- The replica count applied on cycle n of the burst pattern. -/
def burstCount (min max : Int) (n : Nat) : Int := if n % 2 = 0 then max else min

/- Outcome of running scale.scale, observed after a given number of cycles:
   either the loop is running and has produced a trace, or the process
   exited with a code before entering any loop. -/
inductive ScaleBehavior where
  | running : List (List Resource) → Nat → ScaleBehavior
  | exited : Nat → ScaleBehavior
deriving DecidableEq

/- Mirror of the dispatch in scale.scale: the burst branch, the step branch
   with the adjusted scaling factor, or os.Exit(2) on any other pattern
   name. For the burst pattern one observation step is one Go loop
   iteration (two applies). -/
def scale (resources : List Resource) (patternName : String)
    (min max scalingFactor : Int) (applyFails : Nat → Bool) (cycles : Nat) : ScaleBehavior :=
  if patternName = "burst" then
    let st := burstRun resources min max applyFails cycles
    ScaleBehavior.running st.appliedSets st.stderrLines
  else if patternName = "step" then
    let st := stepRun resources min max (effectiveFactor max scalingFactor) applyFails cycles
    ScaleBehavior.running st.appliedSets st.stderrLines
  else
    ScaleBehavior.exited 2

/- Decidable check that an object within bounds: if the replica field is
   set, its value lies between lo and hi. -/
def replicasWithin (lo hi : Int) (o : K8sObject) : Bool :=
  match o.replicas with
  | some c => decide (lo ≤ c) && decide (c ≤ hi)
  | none => true

/- A one-file sample target set with one deployment object and one
   non-deployment object, used to instantiate theorems. -/
def sampleSet : List Resource :=
  [ { fileName := "fake-webserver.yaml",
      objects := [ { kind := "Deployment", replicas := some 1, payload := "spec" },
                   { kind := "Service", replicas := none, payload := "svc" } ] } ]

theorem wrap32_eq_self {x : Int} (h1 : -2147483648 ≤ x) (h2 : x < 2147483648) :
    wrap32 x = x := by
  unfold wrap32
  omega

theorem updateObjects_eq (objects : List K8sObject) (c : Int) :
    updateObjects objects c =
      (objects.filter fun o => strLower o.kind == "deployment").map
        fun o => { o with replicas := some c } := by
  induction objects with
  | nil => rfl
  | cons o rest ih =>
    by_cases h : strLower o.kind = "deployment"
    · simp [updateObjects, h, List.filter_cons, ih]
    · simp [updateObjects, h, List.filter_cons, ih]

theorem mem_updateObjects {o' : K8sObject} {objects : List K8sObject} {c : Int}
    (h : o' ∈ updateObjects objects c) :
    strLower o'.kind = "deployment" ∧ o'.replicas = some c ∧
      ∃ o ∈ objects, o'.kind = o.kind ∧ o'.payload = o.payload := by
  induction objects with
  | nil => simp [updateObjects] at h
  | cons o rest ih =>
    by_cases hk : strLower o.kind = "deployment"
    · rw [updateObjects, if_pos hk] at h
      rcases List.mem_cons.mp h with h1 | h2
      · subst h1
        exact ⟨hk, rfl, o, List.mem_cons_self o rest, rfl, rfl⟩
      · obtain ⟨hd, hr, o0, ho0, hk0, hp0⟩ := ih h2
        exact ⟨hd, hr, o0, List.mem_cons_of_mem o ho0, hk0, hp0⟩
    · rw [updateObjects, if_neg hk] at h
      obtain ⟨hd, hr, o0, ho0, hk0, hp0⟩ := ih h
      exact ⟨hd, hr, o0, List.mem_cons_of_mem o ho0, hk0, hp0⟩

theorem mem_updateObjects_of_mem {o : K8sObject} {objects : List K8sObject} {c : Int}
    (h : o ∈ objects) (hd : strLower o.kind = "deployment") :
    { o with replicas := some c } ∈ updateObjects objects c := by
  induction objects with
  | nil => simp at h
  | cons o1 rest ih =>
    rcases List.mem_cons.mp h with h1 | h2
    · subst h1
      rw [updateObjects, if_pos hd]
      exact List.mem_cons_self _ _
    · by_cases hk : strLower o1.kind = "deployment"
      · rw [updateObjects, if_pos hk]
        exact List.mem_cons_of_mem _ (ih h2)
      · rw [updateObjects, if_neg hk]
        exact ih h2

theorem mem_updateReplicas {r' : Resource} {resources : List Resource} {c : Int}
    (h : r' ∈ updateReplicas resources c) :
    ∃ r ∈ resources, r'.fileName = r.fileName ∧ r'.objects = updateObjects r.objects c := by
  induction resources with
  | nil => simp [updateReplicas] at h
  | cons r rest ih =>
    by_cases hl : 0 < (updateObjects r.objects c).length
    · rw [updateReplicas] at h
      simp only [hl, if_pos] at h
      rcases List.mem_cons.mp h with h1 | h2
      · subst h1
        exact ⟨r, List.mem_cons_self r rest, rfl, rfl⟩
      · obtain ⟨r0, hr0, hf, hobj⟩ := ih h2
        exact ⟨r0, List.mem_cons_of_mem r hr0, hf, hobj⟩
    · rw [updateReplicas] at h
      simp only [hl, if_neg, if_false] at h
      obtain ⟨r0, hr0, hf, hobj⟩ := ih h
      exact ⟨r0, List.mem_cons_of_mem r hr0, hf, hobj⟩

theorem replicas_of_mem_updateReplicas {r' : Resource} {resources : List Resource} {c : Int}
    {o : K8sObject} (hr : r' ∈ updateReplicas resources c) (ho : o ∈ r'.objects) :
    o.replicas = some c := by
  obtain ⟨r, _, _, hobj⟩ := mem_updateReplicas hr
  rw [hobj] at ho
  exact (mem_updateObjects ho).2.1

theorem updateReplicas_eq_spec (resources : List Resource) (c : Int) :
    updateReplicas resources c = setReplicasSpec resources c := by
  induction resources with
  | nil => rfl
  | cons r rest ih =>
    simp only [updateReplicas, setReplicasSpec, List.filterMap_cons, ← updateObjects_eq] at ih ⊢
    rcases hobj : updateObjects r.objects c with _ | ⟨o, objs⟩ <;>
      simp [hobj, ih]

theorem stepRun_numberOfResources (resources : List Resource) (lo hi f : Int)
    (applyFails : Nat → Bool) (n : Nat) :
    (stepRun resources lo hi f applyFails n).numberOfResources = stepCount lo hi f n := by
  induction n with
  | zero => rfl
  | succ n ih => rw [stepRun, stepCount, ih]

theorem stepRun_length (resources : List Resource) (lo hi f : Int)
    (applyFails : Nat → Bool) (n : Nat) :
    (stepRun resources lo hi f applyFails n).appliedSets.length = n := by
  induction n with
  | zero => rfl
  | succ n ih => rw [stepRun]; simp [ih]

theorem mem_stepRun_appliedSets {s : List Resource} {resources : List Resource}
    {lo hi f : Int} {applyFails : Nat → Bool} {n : Nat}
    (h : s ∈ (stepRun resources lo hi f applyFails n).appliedSets) :
    ∃ i, i < n ∧ s = updateReplicas resources (stepCount lo hi f i) := by
  induction n with
  | zero => simp [stepRun] at h
  | succ n ih =>
    rw [stepRun] at h
    rcases List.mem_append.mp h with h1 | h2
    · obtain ⟨i, hi, hs⟩ := ih h1
      exact ⟨i, Nat.lt_succ_of_lt hi, hs⟩
    · refine ⟨n, Nat.lt_succ_self n, ?_⟩
      rw [stepRun_numberOfResources] at h2
      simpa using h2

theorem stepRun_appliedSets_getD (resources : List Resource) (lo hi f : Int)
    (applyFails : Nat → Bool) (n i : Nat) (h : i < n) :
    (stepRun resources lo hi f applyFails n).appliedSets.getD i [] =
      updateReplicas resources (stepCount lo hi f i) := by
  induction n with
  | zero => omega
  | succ n ih =>
    rw [stepRun]
    simp only
    rcases Nat.lt_or_ge i n with hlt | hge
    · rw [List.getD_append _ _ _ _ (by rw [stepRun_length]; exact hlt)]
      exact ih hlt
    · have hi : i = n := by omega
      subst hi
      rw [List.getD_append_right _ _ _ _ (by rw [stepRun_length])]
      rw [stepRun_length, Nat.sub_self, stepRun_numberOfResources]
      rfl

theorem burstLoop_length (maxSet minSet : List Resource) (applyFails : Nat → Bool) (k : Nat) :
    (burstLoop maxSet minSet applyFails k).appliedSets.length = 2 * k := by
  induction k with
  | zero => rfl
  | succ k ih => rw [burstLoop]; simp [ih]; omega

theorem mem_burstRun_appliedSets {s : List Resource} {resources : List Resource}
    {lo hi : Int} {applyFails : Nat → Bool} {k : Nat}
    (h : s ∈ (burstRun resources lo hi applyFails k).appliedSets) :
    s = updateReplicas resources hi ∨ s = updateReplicas resources lo := by
  rw [burstRun] at h
  induction k with
  | zero => simp [burstLoop] at h
  | succ k ih =>
    rw [burstLoop] at h
    rcases List.mem_append.mp h with h1 | h2
    · exact ih h1
    · rcases List.mem_cons.mp h2 with h3 | h4
      · exact Or.inl h3
      · exact Or.inr (by simpa using h4)

theorem burstRun_appliedSets_getD (resources : List Resource) (lo hi : Int)
    (applyFails : Nat → Bool) (k n : Nat) (h : n < 2 * k) :
    (burstRun resources lo hi applyFails k).appliedSets.getD n [] =
      if n % 2 = 0 then updateReplicas resources hi else updateReplicas resources lo := by
  rw [burstRun]
  induction k with
  | zero => omega
  | succ k ih =>
    rw [burstLoop]
    simp only
    rcases Nat.lt_or_ge n (2 * k) with hlt | hge
    · rw [List.getD_append _ _ _ _ (by rw [burstLoop_length]; exact hlt)]
      exact ih hlt
    · rw [List.getD_append_right _ _ _ _ (by rw [burstLoop_length]; exact hge)]
      rw [burstLoop_length]
      have : n = 2 * k ∨ n = 2 * k + 1 := by omega
      rcases this with h1 | h1
      · subst h1
        rw [Nat.sub_self]
        rw [if_pos (by omega)]
        rfl
      · subst h1
        have : 2 * k + 1 - 2 * k = 1 := by omega
        rw [this, if_neg (by omega)]
        rfl

theorem stepCount_closed_form_aux (lo hi f : Int) (hlo : 0 ≤ lo) (hle : lo ≤ hi)
    (hf : 0 ≤ f) (hov : hi + f < 2147483648) (n : Nat) :
    stepCount lo hi f n = if lo + n * f ≤ hi then lo + n * f else hi := by
  induction n with
  | zero =>
    rw [stepCount]
    simp only [Nat.cast_zero, zero_mul, add_zero]
    rw [if_pos hle]
  | succ n ih =>
    have hnf : (0 : Int) ≤ n * f := mul_nonneg (Int.natCast_nonneg n) hf
    have hcast : ((n + 1 : Nat) : Int) * f = n * f + f := by push_cast; ring
    rw [stepCount, ih, stepNext]
    by_cases hc : lo + n * f ≤ hi
    · rw [if_pos hc]
      rw [wrap32_eq_self (by omega) (by omega)]
      simp only [hcast]
      by_cases hc2 : lo + (n * f + f) ≤ hi
      · rw [if_neg (by omega), if_pos (by omega)]
        ring
      · rw [if_pos (by omega), if_neg (by omega)]
    · rw [if_neg hc]
      rw [wrap32_eq_self (by omega) (by omega)]
      simp only [hcast]
      by_cases hf0 : f = 0
      · subst hf0
        rw [if_neg (by omega), if_neg (by omega)]
        ring
      · rw [if_pos (by omega), if_neg (by omega)]

theorem stepCount_bounds (lo hi f : Int) (hlo : 0 ≤ lo) (hle : lo ≤ hi)
    (hf : 0 ≤ f) (hov : hi + f < 2147483648) (n : Nat) :
    lo ≤ stepCount lo hi f n ∧ stepCount lo hi f n ≤ hi := by
  rw [stepCount_closed_form_aux lo hi f hlo hle hf hov n]
  have hnf : (0 : Int) ≤ n * f := mul_nonneg (Int.natCast_nonneg n) hf
  by_cases hc : lo + n * f ≤ hi
  · rw [if_pos hc]; omega
  · rw [if_neg hc]; omega

theorem updateReplicas_mem_of_mem {r : Resource} {resources : List Resource} {c : Int}
    (h : r ∈ resources) (hne : 0 < (updateObjects r.objects c).length) :
    { fileName := r.fileName, objects := updateObjects r.objects c } ∈
      updateReplicas resources c := by
  induction resources with
  | nil => simp at h
  | cons r1 rest ih =>
    rcases List.mem_cons.mp h with h1 | h2
    · subst h1
      rw [updateReplicas]
      simp only [hne, if_pos]
      exact List.mem_cons_self _ _
    · rw [updateReplicas]
      by_cases hl : 0 < (updateObjects r1.objects c).length
      · simp only [hl, if_pos]
        exact List.mem_cons_of_mem _ (ih h2)
      · simp only [hl, if_neg, if_false]
        exact ih h2

/-- C3: under the step pattern, if the supplied scaling factor is unset (zero) or at least max,
the factor actually used is recomputed, before the loop starts, as max divided by 10 with
truncating integer division; otherwise the supplied factor is used unchanged. -/
theorem scaling_factor_derivation (hi f : Int) :
    effectiveFactor hi f = if f = 0 ∨ hi ≤ f then Int.tdiv hi 10 else f := by
  unfold effectiveFactor
  by_cases h1 : f ≥ hi <;> by_cases h2 : f = 0 <;> simp [h1, h2]

/-- C5: setReplicas (implemented as updateReplicas) agrees with the specification description:
it returns a copy of exactly the deployment objects with the replica field set to the given
count, every object of the result is a deployment carrying the new count, and every deployment
object of the input reappears, updated, in the result; non-deployment objects are absent. -/
theorem setReplicas_correct (resources : List Resource) (count : Int) :
    updateReplicas resources count = setReplicasSpec resources count ∧
    (∀ r ∈ updateReplicas resources count, ∀ o ∈ r.objects,
        strLower o.kind = "deployment" ∧ o.replicas = some count) ∧
    (∀ r ∈ resources, ∀ o ∈ r.objects, strLower o.kind = "deployment" →
        ∃ r' ∈ updateReplicas resources count,
          { o with replicas := some count } ∈ r'.objects) := by
  refine ⟨updateReplicas_eq_spec resources count, ?_, ?_⟩
  · intro r hr o ho
    obtain ⟨r0, _, _, hobj⟩ := mem_updateReplicas hr
    rw [hobj] at ho
    obtain ⟨hk, hrep, _⟩ := mem_updateObjects ho
    exact ⟨hk, hrep⟩
  · intro r hr o ho hk
    have hmem : { o with replicas := some count } ∈ updateObjects r.objects count :=
      mem_updateObjects_of_mem ho hk
    have hne : 0 < (updateObjects r.objects count).length :=
      List.length_pos.mpr (List.ne_nil_of_mem hmem)
    exact ⟨{ fileName := r.fileName, objects := updateObjects r.objects count },
      updateReplicas_mem_of_mem hr hne, hmem⟩

/-- C5 witness: the correctness of setReplicas instantiated on the sample target set with
count 7. -/
theorem setReplicas_correct_witness :
    updateReplicas sampleSet 7 = setReplicasSpec sampleSet 7 ∧
    (∀ r ∈ updateReplicas sampleSet 7, ∀ o ∈ r.objects,
        strLower o.kind = "deployment" ∧ o.replicas = some 7) :=
  ⟨(setReplicas_correct sampleSet 7).1, (setReplicas_correct sampleSet 7).2.1⟩

/-- C8: the loaded target set is only ever changed in the replica field of deployment objects:
every object of every set handed to apply has the kind and the payload of an object of the
original target set and carries the rewritten count, and every set handed to apply during
either loop is computed from the original loaded resources. -/
theorem target_set_frame :
    (∀ (resources : List Resource) (count : Int), ∀ r ∈ updateReplicas resources count,
        ∃ r0 ∈ resources, r.fileName = r0.fileName ∧
          ∀ o ∈ r.objects, ∃ o0 ∈ r0.objects,
            o.kind = o0.kind ∧ o.payload = o0.payload ∧ o.replicas = some count) ∧
    (∀ (resources : List Resource) (lo hi f : Int) (applyFails : Nat → Bool) (n : Nat),
        ∀ s ∈ (stepRun resources lo hi f applyFails n).appliedSets,
          ∃ c, s = updateReplicas resources c) ∧
    (∀ (resources : List Resource) (lo hi : Int) (applyFails : Nat → Bool) (k : Nat),
        ∀ s ∈ (burstRun resources lo hi applyFails k).appliedSets,
          s = updateReplicas resources hi ∨ s = updateReplicas resources lo) := by
  refine ⟨?_, ?_, ?_⟩
  · intro resources count r hr
    obtain ⟨r0, hr0, hf, hobj⟩ := mem_updateReplicas hr
    refine ⟨r0, hr0, hf, ?_⟩
    intro o ho
    rw [hobj] at ho
    obtain ⟨_, hrep, o0, ho0, hk0, hp0⟩ := mem_updateObjects ho
    exact ⟨o0, ho0, hk0, hp0, hrep⟩
  · intro resources lo hi f applyFails n s hs
    obtain ⟨i, _, hs'⟩ := mem_stepRun_appliedSets hs
    exact ⟨stepCount lo hi f i, hs'⟩
  · intro resources lo hi applyFails k s hs
    exact mem_burstRun_appliedSets hs

/-- C8 witness: the frame property instantiated on the sample target set with count 9. -/
theorem target_set_frame_witness :
    ∀ r ∈ updateReplicas sampleSet 9, ∃ r0 ∈ sampleSet, r.fileName = r0.fileName ∧
      ∀ o ∈ r.objects, ∃ o0 ∈ r0.objects,
        o.kind = o0.kind ∧ o.payload = o0.payload ∧ o.replicas = some 9 :=
  target_set_frame.1 sampleSet 9

/-- C2: under the burst pattern, after k loop iterations exactly 2k resource sets have been
applied; the set applied at position n is the snapshot with all deployment replica counts set
to max when n is even and to min when n is odd, so the applied counts alternate forever
between max and min starting with max, and every applied set is one of the two snapshots
computed once from the loaded resources. -/
theorem burst_alternates (resources : List Resource) (lo hi : Int)
    (applyFails : Nat → Bool) (k n : Nat) (h : n < 2 * k) :
    (burstRun resources lo hi applyFails k).appliedSets.length = 2 * k ∧
    (burstRun resources lo hi applyFails k).appliedSets.getD n [] =
      updateReplicas resources (burstCount lo hi n) ∧
    burstCount lo hi n = (if n % 2 = 0 then hi else lo) := by
  refine ⟨by rw [burstRun]; exact burstLoop_length _ _ _ _, ?_, rfl⟩
  rw [burstRun_appliedSets_getD resources lo hi applyFails k n h, burstCount]
  by_cases hp : n % 2 = 0 <;> simp [hp]

/-- C2 witness: the burst alternation instantiated on the sample target set with min 1 and
max 20, two loop iterations, position 3. -/
theorem burst_alternates_witness :
    (burstRun sampleSet 1 20 (fun _ => false) 2).appliedSets.length = 2 * 2 ∧
    (burstRun sampleSet 1 20 (fun _ => false) 2).appliedSets.getD 3 [] =
      updateReplicas sampleSet (burstCount 1 20 3) ∧
    burstCount 1 20 3 = (if 3 % 2 = 0 then 20 else 1) :=
  burst_alternates sampleSet 1 20 (fun _ => false) 2 3 (by decide)

/-- C4 counterexample: with min 0, max 2147483647 (the largest int32) and the scaling factor
unset, the derived factor is 214748364; on cycle 11 the int32 addition overflows and wraps to a
negative count, so the applied count differs from the claimed value min(min + 11 * factor, max). -/
theorem step_closed_form_cex :
    stepCount 0 2147483647 (effectiveFactor 2147483647 0) 11 ≠
      (if (0 : Int) + 11 * effectiveFactor 2147483647 0 ≤ 2147483647
       then 0 + 11 * effectiveFactor 2147483647 0 else 2147483647) := by
  decide

/-- C4 (amended): under the step pattern, provided the effective scaling factor is nonnegative
and max plus the factor stays within int32 range (so the addition never overflows), the count
applied on cycle n equals min(min + n * factor, max): the loop starts at min, rises by the
factor each cycle and clamps at max; moreover the set applied on cycle n of the running loop is
the loaded target set rewritten with exactly that count. -/
theorem step_closed_form (lo hi f : Int) (n : Nat) (hlo : 0 ≤ lo) (hle : lo ≤ hi)
    (hf : 0 ≤ f) (hov : hi + f < 2147483648) :
    stepCount lo hi f n = (if lo + n * f ≤ hi then lo + n * f else hi) ∧
    (∀ (resources : List Resource) (applyFails : Nat → Bool) (N : Nat), n < N →
        (stepRun resources lo hi f applyFails N).appliedSets.getD n [] =
          updateReplicas resources (stepCount lo hi f n)) :=
  ⟨stepCount_closed_form_aux lo hi f hlo hle hf hov n,
    fun resources applyFails N hN => stepRun_appliedSets_getD resources lo hi f applyFails N n hN⟩

/-- C4 witness: with min 0, max 100 and the factor unset the derived factor is 10, and the
count applied on cycle 4 is 40. -/
theorem step_closed_form_witness :
    stepCount 0 100 (effectiveFactor 100 0) 4 = 40 := by
  have h := (step_closed_form 0 100 (effectiveFactor 100 0) 4 (by decide) (by decide)
    (by decide) (by decide)).1
  rw [h]
  decide

/-- C1 counterexample: min 0 and max 10 satisfy the data-model preconditions, but a supplied
step factor of -1 is neither zero nor at least max, so the adjustment does not trigger, and the
count applied on cycle 1 is -1, below min. -/
theorem applied_replicas_within_bounds_cex :
    ¬ (∀ s ∈ (stepRun sampleSet 0 10 (effectiveFactor 10 (-1)) (fun _ => false) 2).appliedSets,
        ∀ r ∈ s, ∀ o ∈ r.objects, replicasWithin 0 10 o = true) := by
  decide

/-- C1 (amended): every replica count handed to apply lies in the closed interval from min to
max: for the burst pattern under the data-model preconditions alone, and for the step pattern
provided additionally that the effective scaling factor is nonnegative and max plus the factor
stays within int32 range. -/
theorem applied_replicas_within_bounds (resources : List Resource) (lo hi f : Int)
    (applyFails : Nat → Bool) (n : Nat) (hlo : 0 ≤ lo) (hle : lo ≤ hi)
    (hf : 0 ≤ f) (hov : hi + f < 2147483648) :
    (∀ s ∈ (burstRun resources lo hi applyFails n).appliedSets,
        ∀ r ∈ s, ∀ o ∈ r.objects, replicasWithin lo hi o = true) ∧
    (∀ s ∈ (stepRun resources lo hi f applyFails n).appliedSets,
        ∀ r ∈ s, ∀ o ∈ r.objects, replicasWithin lo hi o = true) := by
  constructor
  · intro s hs r hr o ho
    rcases mem_burstRun_appliedSets hs with h1 | h1 <;> subst h1
    · have hrep := replicas_of_mem_updateReplicas hr ho
      simp [replicasWithin, hrep, hle]
    · have hrep := replicas_of_mem_updateReplicas hr ho
      simp [replicasWithin, hrep, hle]
  · intro s hs r hr o ho
    obtain ⟨i, _, hs'⟩ := mem_stepRun_appliedSets hs
    subst hs'
    have hrep := replicas_of_mem_updateReplicas hr ho
    have hb := stepCount_bounds lo hi f hlo hle hf hov i
    simp only [replicasWithin, hrep, Bool.and_eq_true, decide_eq_true_eq]
    exact hb

/-- C1 witness: the bound instantiated on the sample target set with min 1, max 20 and a
supplied factor 4 (kept unchanged by the adjustment), over three cycles of each pattern. -/
theorem applied_replicas_within_bounds_witness :
    (∀ s ∈ (burstRun sampleSet 1 20 (fun _ => false) 3).appliedSets,
        ∀ r ∈ s, ∀ o ∈ r.objects, replicasWithin 1 20 o = true) ∧
    (∀ s ∈ (stepRun sampleSet 1 20 (effectiveFactor 20 4) (fun _ => false) 3).appliedSets,
        ∀ r ∈ s, ∀ o ∈ r.objects, replicasWithin 1 20 o = true) :=
  applied_replicas_within_bounds sampleSet 1 20 (effectiveFactor 20 4) (fun _ => false) 3
    (by decide) (by decide) (by decide) (by decide)

/-- C7: an apply failure on some cycle writes one line to standard error and changes nothing
else: the applied-set trace and the loop counter after any number of cycles are identical
whatever the set of failing cycles, the loop performs exactly one apply per cycle regardless
of failures, and a failing cycle increments the stderr line count by exactly one. -/
theorem apply_error_nonfatal :
    (∀ (resources : List Resource) (lo hi f : Int) (e1 e2 : Nat → Bool) (n : Nat),
        (stepRun resources lo hi f e1 n).appliedSets =
          (stepRun resources lo hi f e2 n).appliedSets ∧
        (stepRun resources lo hi f e1 n).numberOfResources =
          (stepRun resources lo hi f e2 n).numberOfResources) ∧
    (∀ (resources : List Resource) (lo hi : Int) (e1 e2 : Nat → Bool) (k : Nat),
        (burstRun resources lo hi e1 k).appliedSets =
          (burstRun resources lo hi e2 k).appliedSets) ∧
    (∀ (resources : List Resource) (lo hi f : Int) (e : Nat → Bool) (n : Nat),
        (stepRun resources lo hi f e n).appliedSets.length = n) ∧
    (∀ (resources : List Resource) (lo hi f : Int) (e : Nat → Bool) (n : Nat), e n = true →
        (stepRun resources lo hi f e (n + 1)).stderrLines =
          (stepRun resources lo hi f e n).stderrLines + 1) := by
  refine ⟨?_, ?_, ?_, ?_⟩
  · intro resources lo hi f e1 e2 n
    induction n with
    | zero => exact ⟨rfl, rfl⟩
    | succ n ih =>
      rw [stepRun, stepRun]
      simp only
      rw [ih.1, ih.2]
      exact ⟨rfl, rfl⟩
  · intro resources lo hi e1 e2 k
    rw [burstRun, burstRun]
    induction k with
    | zero => rfl
    | succ k ih =>
      rw [burstLoop, burstLoop]
      simp only
      rw [ih]
  · intro resources lo hi f e n
    exact stepRun_length resources lo hi f e n
  · intro resources lo hi f e n he
    rw [stepRun]
    simp [he]

/-- C7 witness: a failure on cycle 1 of the step loop adds exactly one stderr line. -/
theorem apply_error_nonfatal_witness :
    (stepRun sampleSet 0 10 2 (fun i => i == 1) 2).stderrLines =
      (stepRun sampleSet 0 10 2 (fun i => i == 1) 1).stderrLines + 1 :=
  apply_error_nonfatal.2.2.2 sampleSet 0 10 2 (fun i => i == 1) 1 (by decide)

/-- C6: any pattern name other than burst and step makes the scale operation exit with the
non-zero code 2 at startup, with no apply call issued however many cycles are observed, and
this is the only precondition failure: for the two valid pattern names the loop runs and never
exits. -/
theorem invalid_pattern_exits :
    (∀ (resources : List Resource) (patternName : String) (lo hi f : Int)
        (applyFails : Nat → Bool) (cycles : Nat),
        patternName ≠ "burst" → patternName ≠ "step" →
        scale resources patternName lo hi f applyFails cycles = ScaleBehavior.exited 2 ∧
        (2 : Nat) ≠ 0 ∧
        ∀ sets lines, scale resources patternName lo hi f applyFails cycles ≠
          ScaleBehavior.running sets lines) ∧
    (∀ (resources : List Resource) (patternName : String) (lo hi f : Int)
        (applyFails : Nat → Bool) (cycles : Nat),
        patternName = "burst" ∨ patternName = "step" →
        ∃ sets lines, scale resources patternName lo hi f applyFails cycles =
          ScaleBehavior.running sets lines) := by
  constructor
  · intro resources patternName lo hi f applyFails cycles h1 h2
    rw [scale, if_neg h1, if_neg h2]
    exact ⟨rfl, by omega, fun sets lines h => ScaleBehavior.noConfusion h⟩
  · intro resources patternName lo hi f applyFails cycles h
    rcases h with h | h <;> subst h
    · rw [scale, if_pos rfl]
      exact ⟨_, _, rfl⟩
    · rw [scale, if_neg (by decide), if_pos rfl]
      exact ⟨_, _, rfl⟩

/-- C6 witness: the pattern name in quotes below exits with code 2 while the burst pattern
keeps running. -/
theorem invalid_pattern_exits_witness :
    scale sampleSet ("foo") 1 20 0 (fun _ => false) 5 = ScaleBehavior.exited 2 ∧
    (∃ sets lines, scale sampleSet ("burst") 1 20 0 (fun _ => false) 1 =
      ScaleBehavior.running sets lines) :=
  ⟨(invalid_pattern_exits.1 sampleSet ("foo") 1 20 0 (fun _ => false) 5 (by decide)
      (by decide)).1,
   invalid_pattern_exits.2 sampleSet ("burst") 1 20 0 (fun _ => false) 1 (Or.inl rfl)⟩

/-- C9 counterexample: with min 0, max 5 and the factor unset, the derived factor is
5 / 10 = 0, so the step sequence stays at 0 forever and never reaches max. -/
theorem step_ramp_cex :
    ¬ ∃ n, stepCount 0 5 (effectiveFactor 5 0) n = 5 := by
  have hconst : ∀ m, stepCount 0 5 (effectiveFactor 5 0) m = 0 := by
    intro m
    induction m with
    | zero => rfl
    | succ m ih =>
      rw [stepCount, ih]
      decide
  rintro ⟨n, hn⟩
  rw [hconst n] at hn
  exact absurd hn (by decide)

/-- C9 (amended): under the step pattern, provided the effective scaling factor is positive and
max plus the factor stays within int32 range, the applied counts form a monotonic ramp: the
sequence is non-decreasing, rises by exactly the factor while the next value stays at most max,
reaches max after finitely many cycles and holds at max forever after. -/
theorem step_ramp (lo hi f : Int) (hlo : 0 ≤ lo) (hle : lo ≤ hi) (hf : 0 < f)
    (hov : hi + f < 2147483648) :
    (∀ n : Nat, stepCount lo hi f n ≤ stepCount lo hi f (n + 1)) ∧
    (∀ n : Nat, stepCount lo hi f n + f ≤ hi →
        stepCount lo hi f (n + 1) = stepCount lo hi f n + f) ∧
    (∃ N : Nat, ∀ n : Nat, N ≤ n → stepCount lo hi f n = hi) := by
  have hf0 : (0 : Int) ≤ f := le_of_lt hf
  have hcf := fun m => stepCount_closed_form_aux lo hi f hlo hle hf0 hov m
  have hsucc : ∀ m : Nat, ((m + 1 : Nat) : Int) * f = m * f + f := by
    intro m; push_cast; ring
  refine ⟨?_, ?_, ?_⟩
  · intro n
    have hnf : (0 : Int) ≤ n * f := mul_nonneg (Int.natCast_nonneg n) hf0
    rw [hcf n, hcf (n + 1), hsucc n]
    split_ifs <;> omega
  · intro n hc
    have hnf : (0 : Int) ≤ n * f := mul_nonneg (Int.natCast_nonneg n) hf0
    rw [hcf n] at hc
    rw [hcf n, hcf (n + 1), hsucc n]
    split_ifs at hc ⊢ <;> omega
  · refine ⟨(hi - lo).toNat, ?_⟩
    intro n hn
    have htN : (((hi - lo).toNat : Nat) : Int) = hi - lo := Int.toNat_of_nonneg (by omega)
    have hNn : (((hi - lo).toNat : Nat) : Int) ≤ (n : Int) := Nat.cast_le.mpr hn
    have h3 : (n : Int) ≤ n * f := le_mul_of_one_le_right (Int.natCast_nonneg n) (by omega)
    rw [hcf n]
    split_ifs <;> omega

/-- C9 witness: the ramp properties instantiated with min 2, max 50 and factor 6. -/
theorem step_ramp_witness :
    (∀ n : Nat, stepCount 2 50 6 n ≤ stepCount 2 50 6 (n + 1)) ∧
    (∀ n : Nat, stepCount 2 50 6 n + 6 ≤ 50 →
        stepCount 2 50 6 (n + 1) = stepCount 2 50 6 n + 6) ∧
    (∃ N : Nat, ∀ n : Nat, N ≤ n → stepCount 2 50 6 n = 50) :=
  step_ramp 2 50 6 (by decide) (by decide) (by decide) (by decide)

/-- C10: under the step pattern with the scaling factor unset and 0 < max < 10, the derived
factor is max / 10 = 0, so the count applied on every cycle equals min and the count never
increases towards max. -/
theorem small_max_never_scales (lo hi : Int) (hlo : 0 ≤ lo) (hle : lo ≤ hi)
    (h1 : 0 < hi) (h2 : hi < 10) :
    effectiveFactor hi 0 = 0 ∧ ∀ n : Nat, stepCount lo hi (effectiveFactor hi 0) n = lo := by
  have hfac : effectiveFactor hi 0 = 0 := by
    unfold effectiveFactor
    norm_num
    exact Int.tdiv_eq_zero_of_lt (le_of_lt h1) h2
  refine ⟨hfac, ?_⟩
  intro n
  induction n with
  | zero => rfl
  | succ n ih =>
    rw [stepCount, ih, hfac]
    simp only [stepNext]
    rw [add_zero, wrap32_eq_self (by omega) (by omega)]
    rw [if_neg (by omega)]

/-- C10 witness: with min 1 and max 7 the derived factor is 0 and every applied count is 1. -/
theorem small_max_never_scales_witness :
    effectiveFactor 7 0 = 0 ∧ ∀ n : Nat, stepCount 1 7 (effectiveFactor 7 0) n = 1 :=
  small_max_never_scales 1 7 (by decide) (by decide) (by decide) (by decide)

end Scaler
